import Mathlib

/-!
Verification of the aeolus audio-to-MIDI plugin core (src/lib.rs, src/utils.rs).

Model of `f32`: the claims about the numeric pipeline depend only on the
propagation of the IEEE special values (NaN, plus and minus infinity) and on
the clamping at the end, never on rounding of finite intermediate results.
We therefore embed `f32` as an inductive type whose finite values are exact
rationals: `F32.nan`, `F32.inf s` (with `s = true` for negative infinity) and
`F32.fin q`.  Arithmetic follows the IEEE-754 special-value rules used by
Rust (`inf - inf = NaN`, `0 * inf = NaN`, `max`/`min` ignore a NaN argument,
`log2` of a negative number is NaN, `log2 0 = -inf`, `log2 inf = inf`);
finite arithmetic is exact rational arithmetic.  The value of `f32::log2` on
positive finite inputs is not specified bit-for-bit by the claims, so it is a
parameter `log2fin : Q -> Q` of every definition that needs it: the theorems
hold for every choice of it.
-/

/-- Shallow model of Rust `f32`: NaN, signed infinities, exact finite values.
`inf true` is negative infinity, `inf false` is positive infinity.  Signed
zero is not distinguished (no claim depends on the sign of zero). -/
inductive F32 where
  | nan : F32
  | inf : Bool → F32
  | fin : ℚ → F32
deriving DecidableEq, Repr

namespace F32

/-- IEEE negation. -/
def neg : F32 → F32
  | nan => nan
  | inf s => inf !s
  | fin q => fin (-q)

/-- IEEE addition on the model: NaN propagates, opposite infinities give NaN,
finite addition is exact. -/
def add : F32 → F32 → F32
  | nan, _ => nan
  | inf _, nan => nan
  | fin _, nan => nan
  | inf s, inf t => if s = t then inf s else nan
  | inf s, fin _ => inf s
  | fin _, inf t => inf t
  | fin a, fin b => fin (a + b)

/-- IEEE subtraction, `x - y = x + (-y)`. -/
def sub (x y : F32) : F32 := add x (neg y)

/-- IEEE multiplication: NaN propagates, `0 * inf = NaN`, signs multiply. -/
def mul : F32 → F32 → F32
  | nan, _ => nan
  | inf _, nan => nan
  | fin _, nan => nan
  | inf s, inf t => inf (xor s t)
  | inf s, fin b => if b = 0 then nan else inf (xor s (decide (b < 0)))
  | fin a, inf t => if a = 0 then nan else inf (xor (decide (a < 0)) t)
  | fin a, fin b => fin (a * b)

/-- IEEE division: NaN propagates, `inf / inf = NaN`, `x / inf = 0`,
division of a nonzero finite by zero gives a signed infinity, finite
division by a nonzero finite is exact. -/
def div : F32 → F32 → F32
  | nan, _ => nan
  | inf _, nan => nan
  | fin _, nan => nan
  | inf _, inf _ => nan
  | inf s, fin b => inf (xor s (decide (b < 0)))
  | fin _, inf _ => fin 0
  | fin a, fin b =>
      if b = 0 then (if a = 0 then nan else inf (decide (a < 0)))
      else fin (a / b)

/-- Strict order on non-NaN values (`-inf < fin q < +inf`); any comparison
with NaN is false, as in IEEE. -/
def lt : F32 → F32 → Bool
  | nan, _ => false
  | _, nan => false
  | inf true, inf true => false
  | inf true, _ => true
  | inf false, _ => false
  | fin _, inf false => true
  | fin _, inf true => false
  | fin a, fin b => decide (a < b)

/-- Non-strict order: false whenever one side is NaN. -/
def le (x y : F32) : Bool :=
  match x, y with
  | nan, _ => false
  | _, nan => false
  | x, y => !(lt y x)

/-- Rust `f32::max`: ignores a NaN argument (returns the other one),
otherwise returns the larger value. -/
def fmax (x y : F32) : F32 :=
  match x, y with
  | nan, y => y
  | x, nan => x
  | x, y => if lt x y then y else x

/-- Rust `f32::min`: ignores a NaN argument (returns the other one),
otherwise returns the smaller value. -/
def fmin (x y : F32) : F32 :=
  match x, y with
  | nan, y => y
  | x, nan => x
  | x, y => if lt y x then y else x

/-- Rust `f32::log2` on the model: NaN for NaN or negative inputs (including
negative infinity), `-inf` at zero, `+inf` at positive infinity; on a
positive finite input the (rounded) finite result is given by the parameter
`log2fin`. -/
def log2 (log2fin : ℚ → ℚ) : F32 → F32
  | nan => nan
  | inf s => if s then nan else inf false
  | fin q => if 0 < q then fin (log2fin q) else if q = 0 then inf true else nan

end F32

/-- Translation of `utils::freq_to_midi`:
`69.0 + 12.0 * (frequency/440.0).log2()`. -/
def freq_to_midi (log2fin : ℚ → ℚ) (frequency : F32) : F32 :=
  F32.add (F32.fin 69) (F32.mul (F32.fin 12) (F32.log2 log2fin (F32.div frequency (F32.fin 440))))

/-- Translation of `utils::scale`. -/
def scale (input min_input_value max_input_value min_output_value max_output_value : F32) : F32 :=
  let normalized := F32.div (F32.sub input min_input_value) (F32.sub max_input_value min_input_value)
  F32.add (F32.mul normalized max_output_value) (F32.mul (F32.sub (F32.fin 1) normalized) min_output_value)

/-- Translation of `utils::limit_f32` (called `limit` at its use site in
`lib.rs`): `f32::min(max_value, f32::max(min_value, input))`. -/
def limit_f32 (input min_value max_value : F32) : F32 :=
  F32.fmin max_value (F32.fmax min_value input)

/-- Translation of `utils::limit_u8`: `u8::min(max_value, u8::max(min_value,
input))`.  `u8` values are embedded into `Nat`; `min` and `max` never leave
the `u8` range, so no wraparound arises. -/
def limit_u8 (input min_value max_value : ℕ) : ℕ :=
  Nat.min max_value (Nat.max min_value input)

/-- The constant `HOP_SIZE` of `lib.rs`. -/
def HOP_SIZE : ℕ := 64

/-- The constant `BUFFER_SIZE` of `lib.rs`. -/
def BUFFER_SIZE : ℕ := 128

/-- The constant `MIN_PITCH` of `lib.rs`. -/
def MIN_PITCH : F32 := F32.fin 57

/-- The constant `MAX_PITCH` of `lib.rs`. -/
def MAX_PITCH : F32 := F32.fin 81

/-- The value field of the MIDI CC event as computed in `Aeolus::process`:
`limit(scale(freq_to_midi(frequency), MIN_PITCH, MAX_PITCH, 0.0, 127.0), 0.0, 127.0)`. -/
def ccValue (log2fin : ℚ → ℚ) (frequency : F32) : F32 :=
  limit_f32
    (scale (freq_to_midi log2fin frequency) MIN_PITCH MAX_PITCH (F32.fin 0) (F32.fin 127))
    (F32.fin 0) (F32.fin 127)

/-- Real-number denotation of the `freq_to_midi` formula, used for the
algebraic claim about the note mapping (monotonicity is a statement about
the ideal mapping, not about any particular floating-point rounding). -/
noncomputable def freq_to_midi_real (f : ℝ) : ℝ :=
  69 + 12 * Real.logb 2 (f / 440)

/-!
Model of the plugin state and of `Plugin::process` (src/lib.rs).

The aubio `Pitch` object is external to this repository; it is modelled as an
abstract state type `σ` together with a step function
`analyze : σ → List F32 → σ × Option F32` standing for `Pitch::do_result`
(`none` models `Err(_)`, read by the code as "no pitch found"; `some f`
models `Ok(frequency)`).  Every theorem is proved for every such `analyze`.
The field `pitch_analyzer : Option σ` models `aubio::Result<Pitch>`
(`none` is the `Err` state).  The one parameter of `AeolusParams`, `gain`,
is kept in the state (as an exact rational) so that its non-interference
can be stated.

One frame of input (`buffer.iter_samples()` yields one frame per sample
index) is a list of per-channel samples; the code reads only the first
channel, `channel_samples.into_iter().next().unwrap()`.  The two partial
operations of `process` — that `unwrap`, and the indexed write
`pending_samples[pending_index]` — are modelled by making the step return
`Option`: `none` is a Rust panic.
-/

/-- The plugin state: the fields of `struct Aeolus`, with `params`
flattened to its one parameter `gain`. -/
structure Aeolus (σ : Type) where
  gain : ℚ
  pending_samples : List F32
  pending_index : ℕ
  pitch_analyzer : Option σ
deriving DecidableEq

/-- A MIDI CC event as built in `process`: `NoteEvent::MidiCC`. -/
structure MidiCC where
  timing : ℕ
  channel : ℕ
  cc : ℕ
  value : F32
deriving DecidableEq, Repr

/-- The status returned by `process`; the code only ever returns
`ProcessStatus::Normal`. -/
inductive ProcessStatus where
  | Normal : ProcessStatus
deriving DecidableEq, Repr

/-- What one call of `process` produces: the new state, the events handed to
`context.send_event` (in order), and two instrumentation counters read off
the control flow: `readies` counts hop completions (`pending_index` reached
`HOP_SIZE`), `calls` counts invocations of `Pitch::do_result`. -/
structure StepOut (σ : Type) where
  state : Aeolus σ
  events : List MidiCC
  readies : ℕ
  calls : ℕ
deriving DecidableEq

/-- `Default::default()` for `Aeolus`: empty sample vector, index 0,
`pitch_analyzer = Err(FailedInit)`.  The default gain parameter value is
abstracted as an argument (its value is never read). -/
def defaultAeolus (σ : Type) (g : ℚ) : Aeolus σ :=
  { gain := g, pending_samples := [], pending_index := 0, pitch_analyzer := none }

/-- `Vec::resize(n, v)`: truncate to `n` or pad with `v` up to length `n`. -/
def vecResize (l : List F32) (n : ℕ) (v : F32) : List F32 :=
  l.take n ++ List.replicate (n - l.length) v

/-- Translation of `Plugin::initialize`: resize `pending_samples` to 128
filled with `0.0` and store the result of `Pitch::new` (an external call,
abstracted as `init_res`); returns `true`. -/
def pluginInit {σ : Type} (init_res : Option σ) (st : Aeolus σ) : Aeolus σ × Bool :=
  ({ st with
      pending_samples := vecResize st.pending_samples 128 (F32.fin 0),
      pitch_analyzer := init_res }, true)

/-- Translation of `Plugin::reset`: set `pending_index` to 0 and nothing
else. -/
def pluginReset {σ : Type} (st : Aeolus σ) : Aeolus σ :=
  { st with pending_index := 0 }

/-- The body of the per-sample loop of `process` for one frame, at block
sample index `sample_index`: read the first channel's sample (`none` models
the `unwrap` panic on an empty frame), write it at `pending_index` (`none`
models the out-of-bounds panic), increment the index, and when the index
reaches `HOP_SIZE` run the analysis (when available) and reset the index. -/
def processFrame {σ : Type} (analyze : σ → List F32 → σ × Option F32) (log2fin : ℚ → ℚ)
    (sample_index : ℕ) (st : Aeolus σ) (frame : List F32) : Option (StepOut σ) :=
  match frame.head? with
  | none => none
  | some sample =>
    if st.pending_index < st.pending_samples.length then
      let ps := st.pending_samples.set st.pending_index sample
      let pi := st.pending_index + 1
      if HOP_SIZE ≤ pi then
        match st.pitch_analyzer with
        | none =>
            some ⟨{ st with pending_samples := ps, pending_index := 0 }, [], 1, 0⟩
        | some analyzer =>
            match analyze analyzer ps with
            | (a2, none) =>
                some ⟨{ st with pending_samples := ps, pending_index := 0, pitch_analyzer := some a2 }, [], 1, 1⟩
            | (a2, some frequency) =>
                some ⟨{ st with pending_samples := ps, pending_index := 0, pitch_analyzer := some a2 },
                      [⟨sample_index, 0, 1, ccValue log2fin frequency⟩], 1, 1⟩
      else
        some ⟨{ st with pending_samples := ps, pending_index := pi }, [], 0, 0⟩
    else none

/-- The loop of `process` over the frames of one block, starting at sample
index `sample_index`; accumulates events and counters. -/
def processGo {σ : Type} (analyze : σ → List F32 → σ × Option F32) (log2fin : ℚ → ℚ)
    (sample_index : ℕ) (st : Aeolus σ) : List (List F32) → Option (StepOut σ)
  | [] => some ⟨st, [], 0, 0⟩
  | frame :: rest =>
    match processFrame analyze log2fin sample_index st frame with
    | none => none
    | some o1 =>
      match processGo analyze log2fin (sample_index + 1) o1.state rest with
      | none => none
      | some o2 => some ⟨o2.state, o1.events ++ o2.events, o1.readies + o2.readies, o1.calls + o2.calls⟩

/-- Translation of `Plugin::process`: run the loop from `sample_index = 0`
and return `ProcessStatus::Normal`. -/
def process {σ : Type} (analyze : σ → List F32 → σ × Option F32) (log2fin : ℚ → ℚ)
    (st : Aeolus σ) (frames : List (List F32)) : Option (StepOut σ × ProcessStatus) :=
  (processGo analyze log2fin 0 st frames).map (fun o => (o, ProcessStatus.Normal))

/-- The states reachable by the documented plugin lifecycle: `initialize`
(with some external `Pitch::new` outcome `init_res`) followed by `reset`,
then any interleaving of `process` calls and `reset` calls.  Each processed
block consists of frames with at least one channel's sample, as guaranteed
by the declared audio layout (`main_input_channels = 1`). -/
inductive Reachable {σ : Type} (analyze : σ → List F32 → σ × Option F32) (log2fin : ℚ → ℚ)
    (init_res : Option σ) : Aeolus σ → Prop where
  | start : ∀ g : ℚ,
      Reachable analyze log2fin init_res (pluginReset (pluginInit init_res (defaultAeolus σ g)).1)
  | proc : ∀ (st : Aeolus σ) (frames : List (List F32)) (out : StepOut σ) (pst : ProcessStatus),
      Reachable analyze log2fin init_res st →
      (∀ f ∈ frames, f ≠ []) →
      process analyze log2fin st frames = some (out, pst) →
      Reachable analyze log2fin init_res out.state
  | doReset : ∀ st : Aeolus σ,
      Reachable analyze log2fin init_res st →
      Reachable analyze log2fin init_res (pluginReset st)

/-!  Numeric lemmas about the mapper chain. -/

namespace F32

/-- Equation lemma: `fmax` on two finite values. -/
lemma fmax_fin_fin (a b : ℚ) : fmax (fin a) (fin b) = if a < b then fin b else fin a := by
  by_cases h : a < b <;> simp [fmax, lt, h]

/-- Equation lemma: `fmax` of a finite value and positive infinity. -/
lemma fmax_fin_posinf (a : ℚ) : fmax (fin a) (inf false) = inf false := by simp [fmax, lt]

/-- Equation lemma: `fmax` of a finite value and negative infinity. -/
lemma fmax_fin_neginf (a : ℚ) : fmax (fin a) (inf true) = fin a := by simp [fmax, lt]

/-- Equation lemma: `fmax` ignores a NaN second argument. -/
lemma fmax_fin_nan (a : ℚ) : fmax (fin a) nan = fin a := rfl

/-- Equation lemma: `fmin` on two finite values. -/
lemma fmin_fin_fin (a b : ℚ) : fmin (fin a) (fin b) = if b < a then fin b else fin a := by
  by_cases h : b < a <;> simp [fmin, lt, h]

/-- Equation lemma: `fmin` of a finite value and positive infinity. -/
lemma fmin_fin_posinf (a : ℚ) : fmin (fin a) (inf false) = fin a := by simp [fmin, lt]

/-- Equation lemma: `fmin` of a finite value and negative infinity. -/
lemma fmin_fin_neginf (a : ℚ) : fmin (fin a) (inf true) = inf true := by simp [fmin, lt]

end F32

/-- Clamping an arbitrary `f32` (NaN and infinities included) between finite
bounds `lo ≤ hi` yields a finite value in `[lo, hi]`. -/
lemma limit_f32_fin_bounds (x : F32) (lo hi : ℚ) (h : lo ≤ hi) :
    ∃ q : ℚ, limit_f32 x (F32.fin lo) (F32.fin hi) = F32.fin q ∧ lo ≤ q ∧ q ≤ hi := by
  have hlohi : ∃ q : ℚ, F32.fmin (F32.fin hi) (F32.fin lo) = F32.fin q ∧ lo ≤ q ∧ q ≤ hi := by
    by_cases h3 : lo < hi
    · exact ⟨lo, by rw [F32.fmin_fin_fin, if_pos h3], le_refl lo, h⟩
    · exact ⟨hi, by rw [F32.fmin_fin_fin, if_neg h3], h, le_refl hi⟩
  rcases x with _ | s | v
  · simpa only [limit_f32, F32.fmax_fin_nan] using hlohi
  · rcases s
    · exact ⟨hi, by rw [limit_f32, F32.fmax_fin_posinf, F32.fmin_fin_posinf], h, le_refl hi⟩
    · simpa only [limit_f32, F32.fmax_fin_neginf] using hlohi
  · by_cases h1 : lo < v
    · by_cases h2 : v < hi
      · exact ⟨v, by rw [limit_f32, F32.fmax_fin_fin, if_pos h1, F32.fmin_fin_fin, if_pos h2],
          le_of_lt h1, le_of_lt h2⟩
      · exact ⟨hi, by rw [limit_f32, F32.fmax_fin_fin, if_pos h1, F32.fmin_fin_fin, if_neg h2],
          h, le_refl hi⟩
    · simpa only [limit_f32, F32.fmax_fin_fin, if_neg h1] using hlohi

/-- A clamped value between finite bounds is left unchanged when it already
lies between the bounds. -/
lemma limit_f32_id (v lo hi : ℚ) (h1 : lo ≤ v) (h2 : v ≤ hi) :
    limit_f32 (F32.fin v) (F32.fin lo) (F32.fin hi) = F32.fin v := by
  rw [limit_f32, F32.fmax_fin_fin]
  by_cases ha : lo < v
  · rw [if_pos ha, F32.fmin_fin_fin]
    by_cases hb : v < hi
    · rw [if_pos hb]
    · rw [if_neg hb, le_antisymm h2 (not_lt.mp hb)]
  · rw [if_neg ha, F32.fmin_fin_fin]
    have hvlo : v = lo := le_antisymm (not_lt.mp ha) h1
    by_cases hc : lo < hi
    · rw [if_pos hc, hvlo]
    · rw [if_neg hc]
      have hhi : hi = v := le_antisymm (by rw [hvlo]; exact not_lt.mp hc) h2
      rw [hhi]

/-- On a non-positive or non-finite frequency the mapper chain up to (and
excluding) the final clamp collapses to NaN: the logarithm yields NaN (for a
negative or NaN input, or negative infinity) or an infinity (for zero or
positive infinity), and `scale` then multiplies an infinity by `0.0`. -/
lemma scale_freq_nan (log2fin : ℚ → ℚ) (f : F32)
    (h : f = F32.nan ∨ (∃ s, f = F32.inf s) ∨ ∃ q : ℚ, q ≤ 0 ∧ f = F32.fin q) :
    scale (freq_to_midi log2fin f) MIN_PITCH MAX_PITCH (F32.fin 0) (F32.fin 127) = F32.nan := by
  rcases h with h | ⟨s, h⟩ | ⟨q, hq, h⟩
  · subst h; rfl
  · subst h; rcases s <;> rfl
  · subst h
    rcases eq_or_lt_of_le hq with h0 | h0
    · subst h0
      have h1 : F32.div (F32.fin 0) (F32.fin 440) = F32.fin 0 := by
        norm_num [F32.div]
      have h2 : freq_to_midi log2fin (F32.fin 0) = F32.inf true := by
        simp only [freq_to_midi, h1]
        norm_num [F32.log2, F32.mul, F32.add]
      simp only [scale, h2]
      norm_num [MIN_PITCH, MAX_PITCH, F32.sub, F32.neg, F32.add, F32.mul, F32.div]
    · have hdiv : (q : ℚ) / 440 < 0 := div_neg_of_neg_of_pos h0 (by norm_num)
      have h1 : F32.div (F32.fin q) (F32.fin 440) = F32.fin (q / 440) := by
        norm_num [F32.div]
      have h2 : freq_to_midi log2fin (F32.fin q) = F32.nan := by
        simp only [freq_to_midi, h1]
        norm_num [F32.log2, F32.mul, F32.add, not_lt_of_gt hdiv, ne_of_lt hdiv]
      simp only [scale, h2]
      norm_num [MIN_PITCH, MAX_PITCH, F32.sub, F32.neg, F32.add, F32.mul, F32.div]

/-- Clamping NaN between `0.0` and `127.0` yields exactly `0.0` (Rust
`f32::max(0.0, NaN) = 0.0`, then `f32::min(127.0, 0.0) = 0.0`). -/
lemma limit_f32_nan_zero :
    limit_f32 F32.nan (F32.fin 0) (F32.fin 127) = F32.fin 0 := rfl

/-- The emitted CC value is always a finite number in `[0, 127]`. -/
lemma ccValue_range (log2fin : ℚ → ℚ) (f : F32) :
    ∃ q : ℚ, ccValue log2fin f = F32.fin q ∧ 0 ≤ q ∧ q ≤ 127 :=
  limit_f32_fin_bounds _ 0 127 (by norm_num)

/-- A non-positive or non-finite frequency yields CC value exactly `0.0`. -/
lemma ccValue_bad_zero (log2fin : ℚ → ℚ) (f : F32)
    (h : f = F32.nan ∨ (∃ s, f = F32.inf s) ∨ ∃ q : ℚ, q ≤ 0 ∧ f = F32.fin q) :
    ccValue log2fin f = F32.fin 0 := by
  unfold ccValue
  rw [scale_freq_nan log2fin f h]
  exact limit_f32_nan_zero

/-!  Characterization of the per-sample loop body and of the whole loop. -/

/-- Full characterization of one iteration of the sample loop of `process`
from a state satisfying the buffer invariants: the write stays inside the
hop prefix, the cursor and the ready count follow modular arithmetic on
`HOP_SIZE`, a failed analyzer is never consulted, and any emitted event has
channel 0, controller 1, the current sample index as timing, and a finite
value in `[0, 127]`. -/
lemma processFrame_spec {σ : Type} (analyze : σ → List F32 → σ × Option F32) (log2fin : ℚ → ℚ)
    (i : ℕ) (st : Aeolus σ) (frame : List F32)
    (hlen : st.pending_samples.length = BUFFER_SIZE)
    (hpi : st.pending_index < HOP_SIZE)
    (hfr : frame ≠ []) :
    ∃ o : StepOut σ, processFrame analyze log2fin i st frame = some o ∧
      o.state.gain = st.gain ∧
      o.state.pending_samples.length = BUFFER_SIZE ∧
      o.state.pending_samples.drop HOP_SIZE = st.pending_samples.drop HOP_SIZE ∧
      o.state.pending_index = (st.pending_index + 1) % HOP_SIZE ∧
      o.readies = (st.pending_index + 1) / HOP_SIZE ∧
      o.state.pitch_analyzer.isSome = st.pitch_analyzer.isSome ∧
      (st.pitch_analyzer = none → o.state.pitch_analyzer = none ∧ o.calls = 0 ∧ o.events = []) ∧
      (∀ e ∈ o.events, e.channel = 0 ∧ e.cc = 1 ∧ e.timing = i ∧ HOP_SIZE ≤ st.pending_index + 1 ∧
        ∃ q : ℚ, e.value = F32.fin q ∧ 0 ≤ q ∧ q ≤ 127) := by
  rcases frame with _ | ⟨s, r⟩
  · exact absurd rfl hfr
  have hlt : st.pending_index < st.pending_samples.length := by
    rw [hlen]
    simp only [HOP_SIZE] at hpi
    simp only [BUFFER_SIZE]
    omega
  by_cases hhop : HOP_SIZE ≤ st.pending_index + 1
  · rcases han : st.pitch_analyzer with _ | az
    · refine ⟨⟨{ st with pending_samples := st.pending_samples.set st.pending_index s, pending_index := 0 }, [], 1, 0⟩,
        ?_, rfl, ?_, ?_, ?_, ?_, ?_, ?_, ?_⟩
      · simp [processFrame, hlt, hhop, han]
      · simp [List.length_set, hlen]
      · rw [List.drop_set, if_pos hpi]
      · simp only [HOP_SIZE] at hpi hhop ⊢
        omega
      · simp only [HOP_SIZE] at hpi hhop ⊢
        omega
      · rw [han]
      · exact fun _ => ⟨han, rfl, rfl⟩
      · intro e he
        exact absurd he (List.not_mem_nil e)
    · rcases hres : analyze az (st.pending_samples.set st.pending_index s) with ⟨a2, fr⟩
      rcases fr with _ | freq
      · refine ⟨⟨{ st with pending_samples := st.pending_samples.set st.pending_index s, pending_index := 0, pitch_analyzer := some a2 }, [], 1, 1⟩,
          ?_, rfl, ?_, ?_, ?_, ?_, ?_, ?_, ?_⟩
        · simp [processFrame, hlt, hhop, han, hres]
        · simp [List.length_set, hlen]
        · rw [List.drop_set, if_pos hpi]
        · simp only [HOP_SIZE] at hpi hhop ⊢
          omega
        · simp only [HOP_SIZE] at hpi hhop ⊢
          omega
        · simp [han]
        · intro hc
          exact absurd hc (by simp)
        · intro e he
          exact absurd he (List.not_mem_nil e)
      · refine ⟨⟨{ st with pending_samples := st.pending_samples.set st.pending_index s, pending_index := 0, pitch_analyzer := some a2 },
            [⟨i, 0, 1, ccValue log2fin freq⟩], 1, 1⟩,
          ?_, rfl, ?_, ?_, ?_, ?_, ?_, ?_, ?_⟩
        · simp [processFrame, hlt, hhop, han, hres]
        · simp [List.length_set, hlen]
        · rw [List.drop_set, if_pos hpi]
        · simp only [HOP_SIZE] at hpi hhop ⊢
          omega
        · simp only [HOP_SIZE] at hpi hhop ⊢
          omega
        · simp [han]
        · intro hc
          exact absurd hc (by simp)
        · intro e he
          rw [List.mem_singleton] at he
          subst he
          exact ⟨rfl, rfl, rfl, hhop, ccValue_range log2fin freq⟩
  · refine ⟨⟨{ st with pending_samples := st.pending_samples.set st.pending_index s, pending_index := st.pending_index + 1 }, [], 0, 0⟩,
      ?_, rfl, ?_, ?_, ?_, ?_, rfl, ?_, ?_⟩
    · simp [processFrame, hlt, hhop]
    · simp [List.length_set, hlen]
    · rw [List.drop_set, if_pos hpi]
    · simp only [HOP_SIZE] at hpi hhop ⊢
      omega
    · simp only [HOP_SIZE] at hpi hhop ⊢
      omega
    · exact fun h => ⟨h, rfl, rfl⟩
    · intro e he
      exact absurd he (List.not_mem_nil e)

/-- Full characterization of the sample loop of `process` over a block of
nonempty frames, from a state satisfying the buffer invariants: the loop
never panics, the tail of the window beyond the hop prefix is untouched,
cursor and ready count follow division by `HOP_SIZE`, a failed analyzer
stays failed, silent and is never consulted, and every emitted event has
channel 0, controller 1, a finite value in `[0, 127]` and a timing offset
pointing at the exact sample whose consumption completed a hop. -/
lemma processGo_spec {σ : Type} (analyze : σ → List F32 → σ × Option F32) (log2fin : ℚ → ℚ)
    (frames : List (List F32)) :
    ∀ (i : ℕ) (st : Aeolus σ),
      st.pending_samples.length = BUFFER_SIZE →
      st.pending_index < HOP_SIZE →
      (∀ f ∈ frames, f ≠ []) →
      ∃ out : StepOut σ, processGo analyze log2fin i st frames = some out ∧
        out.state.gain = st.gain ∧
        out.state.pending_samples.length = BUFFER_SIZE ∧
        out.state.pending_samples.drop HOP_SIZE = st.pending_samples.drop HOP_SIZE ∧
        out.state.pending_index = (st.pending_index + frames.length) % HOP_SIZE ∧
        out.state.pending_index < HOP_SIZE ∧
        out.readies = (st.pending_index + frames.length) / HOP_SIZE ∧
        out.state.pitch_analyzer.isSome = st.pitch_analyzer.isSome ∧
        (st.pitch_analyzer = none → out.state.pitch_analyzer = none ∧ out.calls = 0 ∧ out.events = []) ∧
        (∀ e ∈ out.events, e.channel = 0 ∧ e.cc = 1 ∧ i ≤ e.timing ∧ e.timing < i + frames.length ∧
          (st.pending_index + (e.timing - i) + 1) % HOP_SIZE = 0 ∧
          ∃ q : ℚ, e.value = F32.fin q ∧ 0 ≤ q ∧ q ≤ 127) := by
  induction frames with
  | nil =>
    intro i st hlen hpi _
    refine ⟨⟨st, [], 0, 0⟩, rfl, rfl, hlen, rfl, ?_, hpi, ?_, rfl,
      fun h => ⟨h, rfl, rfl⟩, fun e he => absurd he (List.not_mem_nil e)⟩
    · simp only [List.length_nil, HOP_SIZE] at *
      omega
    · simp only [List.length_nil, HOP_SIZE] at *
      omega
  | cons f rest ih =>
    intro i st hlen hpi hfr
    obtain ⟨o1, heq1, hg1, hlen1, hdrop1, hpi1, hrd1, hsome1, hnone1, hev1⟩ :=
      processFrame_spec analyze log2fin i st f hlen hpi (hfr f (List.mem_cons_self f rest))
    have hpi1lt : o1.state.pending_index < HOP_SIZE := by
      rw [hpi1]
      exact Nat.mod_lt _ (by norm_num [HOP_SIZE])
    obtain ⟨out2, heq2, hg2, hlen2, hdrop2, hpi2, hpi2lt, hrd2, hsome2, hnone2, hev2⟩ :=
      ih (i + 1) o1.state hlen1 hpi1lt (fun g hg => hfr g (List.mem_cons_of_mem f hg))
    refine ⟨⟨out2.state, o1.events ++ out2.events, o1.readies + out2.readies, o1.calls + out2.calls⟩,
      ?_, hg2.trans hg1, hlen2, hdrop2.trans hdrop1, ?_, hpi2lt, ?_, hsome2.trans hsome1, ?_, ?_⟩
    · simp only [processGo, heq1, heq2]
    · simp only [List.length_cons]
      simp only [HOP_SIZE] at hpi hpi1 hpi2 ⊢
      omega
    · simp only [List.length_cons]
      simp only [HOP_SIZE] at hpi hpi1 hrd1 hpi2 hrd2 ⊢
      omega
    · intro h
      obtain ⟨h1, h2, h3⟩ := hnone1 h
      obtain ⟨h4, h5, h6⟩ := hnone2 h1
      exact ⟨h4, by simp [h2, h5], by simp [h3, h6]⟩
    · intro e he
      rcases List.mem_append.mp he with h | h
      · obtain ⟨hc, hcc, ht, hhopc, hv⟩ := hev1 e h
        refine ⟨hc, hcc, by omega, ?_, ?_, hv⟩
        · simp only [List.length_cons]
          omega
        · simp only [HOP_SIZE] at hpi hhopc ⊢
          omega
      · obtain ⟨hc, hcc, hge, hlt2, hmod, hv⟩ := hev2 e h
        refine ⟨hc, hcc, by omega, ?_, ?_, hv⟩
        · simp only [List.length_cons] at *
          omega
        · simp only [HOP_SIZE] at hpi hpi1 hmod ⊢
          omega

/-- The lifecycle invariant: in every reachable state the window has length
`BUFFER_SIZE`, the cursor is strictly below `HOP_SIZE`, the tail of the
window beyond the hop prefix still holds the zeros written at
initialization, and the analyzer is present exactly when `Pitch::new`
succeeded. -/
lemma Reachable.inv {σ : Type} {analyze : σ → List F32 → σ × Option F32} {log2fin : ℚ → ℚ}
    {init_res : Option σ} {st : Aeolus σ}
    (h : Reachable analyze log2fin init_res st) :
    st.pending_samples.length = BUFFER_SIZE ∧
    st.pending_index < HOP_SIZE ∧
    st.pending_samples.drop HOP_SIZE = List.replicate (BUFFER_SIZE - HOP_SIZE) (F32.fin 0) ∧
    st.pitch_analyzer.isSome = init_res.isSome := by
  induction h with
  | start g =>
    have hps : (pluginReset (pluginInit init_res (defaultAeolus σ g)).1).pending_samples
        = List.replicate 128 (F32.fin 0) := by
      simp only [pluginReset, pluginInit, defaultAeolus, vecResize, List.take_nil,
        List.length_nil, Nat.sub_zero, List.nil_append]
    refine ⟨?_, ?_, ?_, rfl⟩
    · rw [hps, List.length_replicate]
      rfl
    · simp [pluginReset, HOP_SIZE]
    · rw [hps, List.drop_replicate]
      rfl
  | proc st frames out pst hr hfr heq ihs =>
    obtain ⟨hlen, hpi, hdrop, hsome⟩ := ihs
    obtain ⟨out2, heq2, _, hlen2, hdrop2, _, hpi2lt, _, hsome2, _, _⟩ :=
      processGo_spec analyze log2fin frames 0 st hlen hpi hfr
    have hout : out2 = out := by
      rw [process, heq2] at heq
      simp only [Option.map_some', Option.some.injEq, Prod.mk.injEq] at heq
      exact heq.1
    subst hout
    exact ⟨hlen2, hpi2lt, hdrop2.trans hdrop, hsome2.trans hsome⟩
  | doReset st hr ihs =>
    refine ⟨ihs.1, ?_, ihs.2.2.1, ihs.2.2.2⟩
    simp [pluginReset, HOP_SIZE]

/-- One loop iteration on an all-zero window and an all-zero frame, with an
estimator that reports "no pitch found" on all-zero windows: no event is
produced and the window stays all-zero. -/
lemma processFrame_silent {σ : Type} (analyze : σ → List F32 → σ × Option F32) (log2fin : ℚ → ℚ)
    (hE : ∀ (a : σ) (w : List F32), (∀ x ∈ w, x = F32.fin 0) → (analyze a w).2 = none)
    (i : ℕ) (st : Aeolus σ) (frame : List F32)
    (hz : ∀ x ∈ st.pending_samples, x = F32.fin 0)
    (hf : ∀ x ∈ frame, x = F32.fin 0) :
    ∀ o : StepOut σ, processFrame analyze log2fin i st frame = some o →
      o.events = [] ∧ (∀ x ∈ o.state.pending_samples, x = F32.fin 0) := by
  intro o ho
  rcases frame with _ | ⟨s, r⟩
  · simp [processFrame] at ho
  · have hs : s = F32.fin 0 := hf s (List.mem_cons_self s r)
    subst hs
    rw [processFrame] at ho
    simp only [List.head?_cons] at ho
    have hzset : ∀ x ∈ st.pending_samples.set st.pending_index (F32.fin 0), x = F32.fin 0 := by
      intro x hx
      rcases List.mem_or_eq_of_mem_set hx with h | h
      · exact hz x h
      · exact h
    by_cases hlt : st.pending_index < st.pending_samples.length
    · rw [if_pos hlt] at ho
      by_cases hhop : HOP_SIZE ≤ st.pending_index + 1
      · rw [if_pos hhop] at ho
        split at ho
        · cases ho
          exact ⟨rfl, hzset⟩
        · split at ho
          · cases ho
            exact ⟨rfl, hzset⟩
          · rename_i x1 az hansome hpair a2 freq hres
            have hcontra := hE az (st.pending_samples.set st.pending_index (F32.fin 0)) hzset
            rw [hres] at hcontra
            exact absurd hcontra (by simp)
      · rw [if_neg hhop] at ho
        cases ho
        exact ⟨rfl, hzset⟩
    · rw [if_neg hlt] at ho
      exact absurd ho (by simp)

/-- The loop of `process` on all-zero input from an all-zero window, with an
estimator reporting "no pitch found" on all-zero windows: no events at all,
and the window stays all-zero. -/
lemma processGo_silent {σ : Type} (analyze : σ → List F32 → σ × Option F32) (log2fin : ℚ → ℚ)
    (hE : ∀ (a : σ) (w : List F32), (∀ x ∈ w, x = F32.fin 0) → (analyze a w).2 = none)
    (frames : List (List F32)) :
    ∀ (i : ℕ) (st : Aeolus σ),
      (∀ x ∈ st.pending_samples, x = F32.fin 0) →
      (∀ f ∈ frames, ∀ x ∈ f, x = F32.fin 0) →
      ∀ out : StepOut σ, processGo analyze log2fin i st frames = some out →
        out.events = [] ∧ (∀ x ∈ out.state.pending_samples, x = F32.fin 0) := by
  induction frames with
  | nil =>
    intro i st hz _ out hout
    cases hout
    exact ⟨rfl, hz⟩
  | cons f rest ih =>
    intro i st hz hf out hout
    rw [processGo] at hout
    split at hout
    · exact absurd hout (by simp)
    · rename_i o1 hpf
      obtain ⟨hev1, hz1⟩ :=
        processFrame_silent analyze log2fin hE i st f hz (hf f (List.mem_cons_self f rest)) o1 hpf
      split at hout
      · exact absurd hout (by simp)
      · rename_i o2 hgo
        obtain ⟨hev2, hz2⟩ :=
          ih (i + 1) o1.state hz1 (fun g hg => hf g (List.mem_cons_of_mem f hg)) o2 hgo
        cases hout
        exact ⟨by simp [hev1, hev2], hz2⟩

/-- One loop iteration never reads `gain` and never writes it: running the
body from a state whose `gain` is replaced gives the same result with the
replaced `gain` carried through unchanged. -/
lemma processFrame_gain {σ : Type} (analyze : σ → List F32 → σ × Option F32) (log2fin : ℚ → ℚ)
    (i : ℕ) (g : ℚ) (st : Aeolus σ) (frame : List F32) :
    processFrame analyze log2fin i { st with gain := g } frame =
      (processFrame analyze log2fin i st frame).map
        (fun o => ⟨{ o.state with gain := g }, o.events, o.readies, o.calls⟩) := by
  rcases frame with _ | ⟨s, r⟩
  · rfl
  · simp only [processFrame, List.head?_cons]
    by_cases hlt : st.pending_index < st.pending_samples.length
    · simp only [hlt, if_true]
      by_cases hhop : HOP_SIZE ≤ st.pending_index + 1
      · simp only [hhop, if_true]
        rcases han : st.pitch_analyzer with _ | az
        · simp [han]
        · rcases hres : analyze az (st.pending_samples.set st.pending_index s) with ⟨a2, fr⟩
          rcases fr with _ | freq <;> simp [han, hres]
      · simp only [hhop, if_false]
        simp
    · simp only [hlt, if_false]
      simp

/-- The whole sample loop never reads `gain` and never writes it. -/
lemma processGo_gain {σ : Type} (analyze : σ → List F32 → σ × Option F32) (log2fin : ℚ → ℚ)
    (frames : List (List F32)) :
    ∀ (i : ℕ) (g : ℚ) (st : Aeolus σ),
      processGo analyze log2fin i { st with gain := g } frames =
        (processGo analyze log2fin i st frames).map
          (fun o => ⟨{ o.state with gain := g }, o.events, o.readies, o.calls⟩) := by
  induction frames with
  | nil =>
    intro i g st
    rfl
  | cons f rest ih =>
    intro i g st
    simp only [processGo, processFrame_gain]
    cases hpf : processFrame analyze log2fin i st f with
    | none => simp
    | some o1 =>
      simp only [Option.map_some']
      rw [ih]
      cases hgo : processGo analyze log2fin (i + 1) o1.state rest with
      | none => simp
      | some o2 => simp

/-!  Claim theorems. -/

/-- C1: for every frequency value the pitch estimator returns — zero,
negative, infinite or NaN included — the value field of the emitted MidiCC
event, `limit(scale(freq_to_midi(f), 57, 81, 0, 127), 0, 127)`, is a finite
number in `[0, 127]` (in particular never NaN); and a non-positive or
non-finite frequency produces the value exactly `0.0` instead of a
propagated undefined logarithm. -/
theorem cc_value_always_in_unit_range (log2fin : ℚ → ℚ) (f : F32) :
    (∃ q : ℚ, ccValue log2fin f = F32.fin q ∧ 0 ≤ q ∧ q ≤ 127) ∧
    ((f = F32.nan ∨ (∃ s, f = F32.inf s) ∨ ∃ q : ℚ, q ≤ 0 ∧ f = F32.fin q) →
      ccValue log2fin f = F32.fin 0) :=
  ⟨ccValue_range log2fin f, fun h => ccValue_bad_zero log2fin f h⟩

/-- C6: the note-mapping function `freq_to_midi(f) = 69 + 12·log2(f/440)`
maps 440 to exactly 69 and is strictly increasing on positive frequencies. -/
theorem freq_to_midi_anchor_and_monotone :
    freq_to_midi_real 440 = 69 ∧ StrictMonoOn freq_to_midi_real (Set.Ioi (0 : ℝ)) := by
  constructor
  · unfold freq_to_midi_real
    rw [div_self (by norm_num : (440 : ℝ) ≠ 0), Real.logb_one]
    norm_num
  · intro x hx y hy hxy
    unfold freq_to_midi_real
    have hx0 : (0 : ℝ) < x := Set.mem_Ioi.mp hx
    have hlog : Real.logb 2 (x / 440) < Real.logb 2 (y / 440) := by
      refine Real.logb_lt_logb (by norm_num) (div_pos hx0 (by norm_num)) ?_
      exact (div_lt_div_iff_of_pos_right (by norm_num : (0 : ℝ) < 440)).mpr hxy
    linarith

/-- C7 counterexample: with `lo = 5 > hi = 3` the clamp result 3 does not
lie in the (empty) interval `[lo, hi]`, so the claim is false for an
arbitrary pair of bounds. -/
theorem limit_u8_unordered_bounds_counterexample :
    ¬ (5 ≤ limit_u8 0 5 3 ∧ limit_u8 0 5 3 ≤ 3) := by decide

/-- C7 (amended): for bounds `lo ≤ hi` — finite bounds in the `f32` case —
`limit_f32` and `limit_u8` return a result within `[lo, hi]` (for any
input, NaN and infinities included), and return the input unchanged
whenever it already lies within `[lo, hi]`. -/
theorem limit_clamps_into_bounds :
    (∀ (x : F32) (lo hi : ℚ), lo ≤ hi →
      (∃ q : ℚ, limit_f32 x (F32.fin lo) (F32.fin hi) = F32.fin q ∧ lo ≤ q ∧ q ≤ hi) ∧
      (∀ v : ℚ, x = F32.fin v → lo ≤ v → v ≤ hi →
        limit_f32 x (F32.fin lo) (F32.fin hi) = x)) ∧
    (∀ inp lo hi : ℕ, lo ≤ hi →
      (lo ≤ limit_u8 inp lo hi ∧ limit_u8 inp lo hi ≤ hi) ∧
      (lo ≤ inp → inp ≤ hi → limit_u8 inp lo hi = inp)) := by
  constructor
  · intro x lo hi h
    refine ⟨limit_f32_fin_bounds x lo hi h, ?_⟩
    intro v hv h1 h2
    subst hv
    exact limit_f32_id v lo hi h1 h2
  · intro inp lo hi h
    constructor
    · constructor <;> (simp only [limit_u8, Nat.min_def, Nat.max_def]; split <;> split <;> omega)
    · intro h1 h2
      simp only [limit_u8, Nat.min_def, Nat.max_def]
      split <;> split <;> omega

/-- C2: from every reachable state the cursor satisfies
`pending_index ≤ HOP_SIZE` (in fact stays below it between calls), and
processing any block of nonempty frames performs exactly
`(pending_index + n) / HOP_SIZE` hop completions with the cursor ending at
`(pending_index + n) % HOP_SIZE`: one "ready" per `HOP_SIZE` consecutive
samples, with no drift across calls. -/
theorem hop_accumulator_periodicity {σ : Type}
    (analyze : σ → List F32 → σ × Option F32) (log2fin : ℚ → ℚ) (init_res : Option σ)
    (st : Aeolus σ) (h : Reachable analyze log2fin init_res st) :
    st.pending_index ≤ HOP_SIZE ∧
    ∀ frames : List (List F32), (∀ f ∈ frames, f ≠ []) →
      ∃ out : StepOut σ, process analyze log2fin st frames = some (out, ProcessStatus.Normal) ∧
        out.readies = (st.pending_index + frames.length) / HOP_SIZE ∧
        out.state.pending_index = (st.pending_index + frames.length) % HOP_SIZE ∧
        out.state.pending_index < HOP_SIZE := by
  obtain ⟨hlen, hpi, _, _⟩ := h.inv
  refine ⟨le_of_lt hpi, ?_⟩
  intro frames hfr
  obtain ⟨out, heq, _, _, _, hpieq, hpilt, hrd, _, _, _⟩ :=
    processGo_spec analyze log2fin frames 0 st hlen hpi hfr
  refine ⟨out, ?_, hrd, hpieq, hpilt⟩
  rw [process, heq]
  rfl

/-- C2 witness: the freshly initialized plugin, fed one hop of 64 silent
one-channel frames, completes exactly one hop and the cursor returns to 0. -/
theorem hop_accumulator_periodicity_witness :
    (pluginReset (pluginInit (some ()) (defaultAeolus Unit 0)).1).pending_index ≤ HOP_SIZE ∧
    ∃ out : StepOut Unit,
      process (fun a _ => (a, none)) (fun _ => 0)
          (pluginReset (pluginInit (some ()) (defaultAeolus Unit 0)).1)
          (List.replicate HOP_SIZE [F32.fin 0]) = some (out, ProcessStatus.Normal) ∧
      out.readies = 1 ∧ out.state.pending_index = 0 := by
  have h := hop_accumulator_periodicity (fun a _ => (a, none)) (fun _ => 0) (some ())
    (pluginReset (pluginInit (some ()) (defaultAeolus Unit 0)).1) (Reachable.start 0)
  refine ⟨h.1, ?_⟩
  obtain ⟨out, heq, hrd, hpi, _⟩ := h.2 (List.replicate HOP_SIZE [F32.fin 0])
    (fun f hf => by rw [List.eq_of_mem_replicate hf]; simp)
  refine ⟨out, heq, ?_, ?_⟩
  · rw [hrd]
    norm_num [pluginReset, HOP_SIZE]
  · rw [hpi]
    norm_num [pluginReset, HOP_SIZE]

/-- C3: when estimator construction failed (`pitch_analyzer` holds the
`Err` state, as in the default state), processing any block emits zero
events, never invokes the estimation algorithm, keeps the analyzer in the
`Err` state, still advances and wraps the accumulator cursor, and still
returns `ProcessStatus::Normal`. -/
theorem failed_estimator_degrades_silently {σ : Type}
    (analyze : σ → List F32 → σ × Option F32) (log2fin : ℚ → ℚ)
    (st : Aeolus σ) (frames : List (List F32))
    (hfail : st.pitch_analyzer = none)
    (hlen : st.pending_samples.length = BUFFER_SIZE)
    (hpi : st.pending_index < HOP_SIZE)
    (hfr : ∀ f ∈ frames, f ≠ []) :
    ∃ out : StepOut σ, process analyze log2fin st frames = some (out, ProcessStatus.Normal) ∧
      out.events = [] ∧ out.calls = 0 ∧ out.state.pitch_analyzer = none ∧
      out.readies = (st.pending_index + frames.length) / HOP_SIZE ∧
      out.state.pending_index = (st.pending_index + frames.length) % HOP_SIZE := by
  obtain ⟨out, heq, _, _, _, hpieq, _, hrd, _, hnone, _⟩ :=
    processGo_spec analyze log2fin frames 0 st hlen hpi hfr
  obtain ⟨h1, h2, h3⟩ := hnone hfail
  refine ⟨out, ?_, h3, h2, h1, hrd, hpieq⟩
  rw [process, heq]
  rfl

/-- C3 witness: a plugin initialized with a failed `Pitch::new`, fed one
hop of frames by an estimator that would report a pitch, emits nothing,
performs no estimator call and still completes the hop. -/
theorem failed_estimator_degrades_silently_witness :
    ∃ out : StepOut Unit,
      process (fun a _ => (a, some (F32.fin 440))) (fun _ => 0)
          (pluginReset (pluginInit none (defaultAeolus Unit 0)).1)
          (List.replicate HOP_SIZE [F32.fin 0]) = some (out, ProcessStatus.Normal) ∧
      out.events = [] ∧ out.calls = 0 ∧ out.state.pitch_analyzer = none ∧
      out.readies = 1 ∧ out.state.pending_index = 0 := by
  obtain ⟨out, heq, he, hc, ha, hrd, hpi⟩ :=
    failed_estimator_degrades_silently (fun a _ => (a, some (F32.fin 440))) (fun _ => 0)
      (pluginReset (pluginInit none (defaultAeolus Unit 0)).1)
      (List.replicate HOP_SIZE [F32.fin 0])
      rfl
      (by simp [pluginReset, pluginInit, vecResize, defaultAeolus, BUFFER_SIZE])
      (by norm_num [pluginReset, HOP_SIZE])
      (fun f hf => by rw [List.eq_of_mem_replicate hf]; simp)
  refine ⟨out, heq, he, hc, ha, ?_, ?_⟩
  · rw [hrd]
    norm_num [pluginReset, HOP_SIZE]
  · rw [hpi]
    norm_num [pluginReset, HOP_SIZE]

/-- C4: feeding all-zero (silent) samples — whatever the number of blocks
already processed, as long as the window is still all-zero — emits no MIDI
CC event, given the estimator contract that an all-zero window yields "no
pitch found" (the estimation algorithm itself is external to this
repository; spec section 4.2 specifies `NotFound` covers silence). -/
theorem silence_never_emits {σ : Type}
    (analyze : σ → List F32 → σ × Option F32) (log2fin : ℚ → ℚ)
    (st : Aeolus σ) (frames : List (List F32)) (out : StepOut σ) (pst : ProcessStatus)
    (hE : ∀ (a : σ) (w : List F32), (∀ x ∈ w, x = F32.fin 0) → (analyze a w).2 = none)
    (hz : ∀ x ∈ st.pending_samples, x = F32.fin 0)
    (hframes : ∀ f ∈ frames, ∀ x ∈ f, x = F32.fin 0)
    (heq : process analyze log2fin st frames = some (out, pst)) :
    out.events = [] ∧ ∀ x ∈ out.state.pending_samples, x = F32.fin 0 := by
  rw [process] at heq
  cases hgo : processGo analyze log2fin 0 st frames with
  | none =>
    rw [hgo] at heq
    exact absurd heq (by simp)
  | some o =>
    rw [hgo] at heq
    simp only [Option.map_some', Option.some.injEq, Prod.mk.injEq] at heq
    obtain ⟨ho, -⟩ := heq
    obtain ⟨he, hz2⟩ := processGo_silent analyze log2fin hE frames 0 st hz hframes o hgo
    rw [← ho]
    exact ⟨he, hz2⟩

/-- C4 witness: the freshly initialized plugin fed one hop of silence
emits nothing. -/
theorem silence_never_emits_witness :
    ∃ out : StepOut Unit,
      process (fun a _ => (a, none)) (fun _ => 0)
          (pluginReset (pluginInit (some ()) (defaultAeolus Unit 0)).1)
          (List.replicate HOP_SIZE [F32.fin 0]) = some (out, ProcessStatus.Normal) ∧
      out.events = [] := by
  have hps : (pluginReset (pluginInit (some ()) (defaultAeolus Unit 0)).1).pending_samples
      = List.replicate 128 (F32.fin 0) := by
    simp only [pluginReset, pluginInit, defaultAeolus, vecResize, List.take_nil,
      List.length_nil, Nat.sub_zero, List.nil_append]
  obtain ⟨out, hgo, _⟩ := processGo_spec (fun (a : Unit) (_ : List F32) => (a, none)) (fun _ => 0)
    (List.replicate HOP_SIZE [F32.fin 0]) 0
    (pluginReset (pluginInit (some ()) (defaultAeolus Unit 0)).1)
    (by rw [hps, List.length_replicate]; rfl)
    (by norm_num [pluginReset, HOP_SIZE])
    (fun f hf => by rw [List.eq_of_mem_replicate hf]; simp)
  have hpr : process (fun (a : Unit) (_ : List F32) => (a, none)) (fun _ => 0)
      (pluginReset (pluginInit (some ()) (defaultAeolus Unit 0)).1)
      (List.replicate HOP_SIZE [F32.fin 0]) = some (out, ProcessStatus.Normal) := by
    rw [process, hgo]
    rfl
  refine ⟨out, hpr, ?_⟩
  refine (silence_never_emits (fun a _ => (a, none)) (fun _ => 0) _ _ out ProcessStatus.Normal
    (fun a w _ => rfl) ?_ ?_ hpr).1
  · intro x hx
    rw [hps] at hx
    exact List.eq_of_mem_replicate hx
  · intro f hf x hx
    rw [List.eq_of_mem_replicate hf] at hx
    simpa using hx

/-- C5: in every reachable state the window still has its full
initialization length 128, and the tail beyond the hop prefix (indices
64..127) still holds the `0.0` values written once by `initialize`;
moreover a `process` call never changes that tail. -/
theorem window_tail_stays_zero {σ : Type}
    (analyze : σ → List F32 → σ × Option F32) (log2fin : ℚ → ℚ) (init_res : Option σ)
    (st : Aeolus σ) (h : Reachable analyze log2fin init_res st) :
    st.pending_samples.length = BUFFER_SIZE ∧
    st.pending_samples.drop HOP_SIZE = List.replicate (BUFFER_SIZE - HOP_SIZE) (F32.fin 0) ∧
    ∀ (frames : List (List F32)) (out : StepOut σ) (pst : ProcessStatus),
      (∀ f ∈ frames, f ≠ []) →
      process analyze log2fin st frames = some (out, pst) →
      out.state.pending_samples.drop HOP_SIZE = st.pending_samples.drop HOP_SIZE := by
  obtain ⟨hlen, hpi, hdrop, _⟩ := h.inv
  refine ⟨hlen, hdrop, ?_⟩
  intro frames out pst hfr heq
  obtain ⟨out2, hgo, _, _, hdrop2, _⟩ := processGo_spec analyze log2fin frames 0 st hlen hpi hfr
  rw [process, hgo] at heq
  simp only [Option.map_some', Option.some.injEq, Prod.mk.injEq] at heq
  rw [← heq.1]
  exact hdrop2

/-- C5 witness: the freshly initialized plugin has a 128-sample window
whose tail beyond the hop prefix is 64 zeros. -/
theorem window_tail_stays_zero_witness :
    (pluginReset (pluginInit (some ()) (defaultAeolus Unit 0)).1).pending_samples.length
      = BUFFER_SIZE ∧
    (pluginReset (pluginInit (some ()) (defaultAeolus Unit 0)).1).pending_samples.drop HOP_SIZE
      = List.replicate (BUFFER_SIZE - HOP_SIZE) (F32.fin 0) := by
  have h := window_tail_stays_zero (fun (a : Unit) (_ : List F32) => (a, none)) (fun _ => 0)
    (some ()) (pluginReset (pluginInit (some ()) (defaultAeolus Unit 0)).1) (Reachable.start 0)
  exact ⟨h.1, h.2.1⟩

/-- C8: every event emitted by a `process` call has channel 0, controller
number 1, and a timing offset inside the current block which points at the
exact sample whose consumption completed a hop (the cursor position plus
the offset is a multiple of `HOP_SIZE`); events exist only in the returned
block, there is no cross-block event buffer in the state. -/
theorem emitted_event_shape {σ : Type}
    (analyze : σ → List F32 → σ × Option F32) (log2fin : ℚ → ℚ)
    (st : Aeolus σ) (frames : List (List F32)) (out : StepOut σ) (pst : ProcessStatus)
    (hlen : st.pending_samples.length = BUFFER_SIZE)
    (hpi : st.pending_index < HOP_SIZE)
    (hfr : ∀ f ∈ frames, f ≠ [])
    (heq : process analyze log2fin st frames = some (out, pst)) :
    ∀ e ∈ out.events, e.channel = 0 ∧ e.cc = 1 ∧ e.timing < frames.length ∧
      (st.pending_index + e.timing + 1) % HOP_SIZE = 0 := by
  obtain ⟨out2, hgo, _, _, _, _, _, _, _, _, hev⟩ :=
    processGo_spec analyze log2fin frames 0 st hlen hpi hfr
  rw [process, hgo] at heq
  simp only [Option.map_some', Option.some.injEq, Prod.mk.injEq] at heq
  rw [← heq.1]
  intro e he
  obtain ⟨hc, hcc, -, hlt2, hmod, -⟩ := hev e he
  refine ⟨hc, hcc, by omega, ?_⟩
  simpa using hmod

set_option maxRecDepth 20000 in
/-- C8 witness: with the cursor one sample short of a hop, one frame
completes the hop and the emitted event has channel 0, controller 1 and
timing offset 0, the index of the completing sample. -/
theorem emitted_event_shape_witness :
    (0 : ℕ) = 0 ∧ (1 : ℕ) = 1 ∧ (0 : ℕ) < 1 ∧ (63 + 0 + 1) % HOP_SIZE = 0 := by
  have heq : process (fun (a : Unit) (_ : List F32) => (a, some F32.nan)) (fun _ => 0)
      ⟨0, List.replicate 128 (F32.fin 0), 63, some ()⟩ [[F32.fin 0]]
      = some (⟨⟨0, (List.replicate 128 (F32.fin 0)).set 63 (F32.fin 0), 0, some ()⟩,
          [⟨0, 0, 1, ccValue (fun _ => 0) F32.nan⟩], 1, 1⟩, ProcessStatus.Normal) := rfl
  have h := emitted_event_shape (fun (a : Unit) (_ : List F32) => (a, some F32.nan)) (fun _ => 0)
    ⟨0, List.replicate 128 (F32.fin 0), 63, some ()⟩ [[F32.fin 0]] _ _
    (by simp [BUFFER_SIZE]) (by norm_num [HOP_SIZE]) (by simp) heq
  exact h ⟨0, 0, 1, ccValue (fun _ => 0) F32.nan⟩ (List.mem_singleton.mpr rfl)

/-- C9: the gain parameter is never read by `process`: for any two gain
values and otherwise identical state and input, the call produces the same
events, counters and status, and the same final state apart from the gain
field itself, which each run carries through unchanged. -/
theorem gain_parameter_never_read {σ : Type}
    (analyze : σ → List F32 → σ × Option F32) (log2fin : ℚ → ℚ)
    (g1 g2 : ℚ) (st : Aeolus σ) (frames : List (List F32)) :
    process analyze log2fin { st with gain := g1 } frames =
      (process analyze log2fin { st with gain := g2 } frames).map
        (fun r => (⟨{ r.1.state with gain := g1 }, r.1.events, r.1.readies, r.1.calls⟩, r.2)) := by
  have h1 := processGo_gain analyze log2fin frames 0 g1 st
  have h2 := processGo_gain analyze log2fin frames 0 g2 st
  rw [process, process, h1, h2]
  cases processGo analyze log2fin 0 st frames <;> simp

/-- C10: after initialization (window length 128 at least `HOP_SIZE`) and
with at least one channel per frame, the indexed write of `process` is
always in bounds and the first-channel unwrap never panics — the cursor is
below `HOP_SIZE` in every reachable state and `reset` restores 0 — while a
`process` call on a default-constructed plugin panics immediately: the
first write indexes an empty vector (modelled as `none`). -/
theorem indexed_write_in_bounds {σ : Type}
    (analyze : σ → List F32 → σ × Option F32) (log2fin : ℚ → ℚ) (init_res : Option σ) :
    (∀ st : Aeolus σ, Reachable analyze log2fin init_res st →
      st.pending_index < HOP_SIZE ∧ st.pending_samples.length = BUFFER_SIZE) ∧
    (∀ (st : Aeolus σ) (frames : List (List F32)),
      Reachable analyze log2fin init_res st → (∀ f ∈ frames, f ≠ []) →
      ∃ out : StepOut σ, process analyze log2fin st frames = some (out, ProcessStatus.Normal) ∧
        out.state.pending_index < HOP_SIZE ∧ out.state.pending_samples.length = BUFFER_SIZE) ∧
    (∀ st : Aeolus σ, (pluginReset st).pending_index = 0) ∧
    (∀ g : ℚ, process analyze log2fin (defaultAeolus σ g) [[F32.fin 0]] = none) := by
  refine ⟨?_, ?_, fun st => rfl, fun g => rfl⟩
  · intro st h
    obtain ⟨hlen, hpi, _, _⟩ := h.inv
    exact ⟨hpi, hlen⟩
  · intro st frames h hfr
    obtain ⟨hlen, hpi, _, _⟩ := h.inv
    obtain ⟨out, hgo, _, hlen2, _, _, hpilt, _, _, _, _⟩ :=
      processGo_spec analyze log2fin frames 0 st hlen hpi hfr
    refine ⟨out, ?_, hpilt, hlen2⟩
    rw [process, hgo]
    rfl
